import Mathlib

/-!
Verification of the Library-of-Babel coordinate codec
(`babel_bitcoin_password_decrypter/babel_lib.py`).

The Python functions are shallowly embedded as executable Lean definitions.
Machine-level caveats of the embedding:
* Python big integers are `Nat`/`Int` (Python ints are arbitrary precision).
* Python `%` and `//` with a positive divisor are floor (= Euclidean)
  operations, embedded as `Int.emod` / `Int.ediv`.
* A Python function that can raise is embedded with an `Option` result
  (`none` = the call raises).
* Character predicates (`str.isalpha`, `str.lower`, `int()` digit syntax)
  are modelled over ASCII, which covers every character the library's own
  charset and address alphabet can produce.
-/

namespace Babel

/-- Python `CHARSET = 'abcdefghijklmnopqrstuvwxyz ,.'` — the 29-symbol alphabet. -/
def CHARSET : String := "abcdefghijklmnopqrstuvwxyz ,."

/-- Python `CHARSET_LENGTH = len(CHARSET)` (= 29). -/
def CHARSET_LENGTH : Nat := CHARSET.length

/-- Python `PAGE_LENGTH = 3200`. -/
def PAGE_LENGTH : Nat := 3200

/-- Python `BASE36_DIGITS = string.digits + string.ascii_lowercase`. -/
def BASE36_DIGITS : String := "0123456789abcdefghijklmnopqrstuvwxyz"

/-- Embeds `_char_to_value(c)`: a–z → 0–25 (after lowercasing), space → 26,
comma → 27, period → 28, anything else → 26. ASCII model of `c.isalpha()`. -/
def charToValue (c : Char) : Nat :=
  if c.isAlpha then c.toLower.toNat - 'a'.toNat
  else if c = ' ' then 26
  else if c = ',' then 27
  else if c = '.' then 28
  else 26

/-- Embeds `_value_to_char(v)`: 0–25 → a–z, 26 → space, 27 → comma, 28 → period,
anything else → space. -/
def valueToChar (v : Int) : Char :=
  if 0 ≤ v ∧ v ≤ 25 then Char.ofNat ('a'.toNat + v.toNat)
  else if v = 26 then ' '
  else if v = 27 then ','
  else if v = 28 then '.'
  else ' '

/-- Fuel-driven digit expansion loop (structural recursion so that concrete
instances compute); the fuel never runs out when it starts at `n`. -/
def toDigitsRevAux (b : Nat) : Nat → Nat → List Char
  | 0, _ => []
  | _ + 1, 0 => []
  | fuel + 1, n + 1 =>
    if b ≤ 1 then []
    else BASE36_DIGITS.data.getD ((n + 1) % b) ' ' :: toDigitsRevAux b fuel ((n + 1) / b)

/-- Little-endian digit expansion in base `b` using the digit characters of
`BASE36_DIGITS` (decimal digits for `b = 10`), empty for `0`.  This is the
loop body shared by Python's `str(n)` and `_to_base36`. -/
def toDigitsRev (b : Nat) (n : Nat) : List Char :=
  toDigitsRevAux b n n

/-- Embeds `_to_base36(num)`: `'0'` for zero, most-significant digit first for a
positive argument; the Python loop body is skipped for a negative argument,
yielding the empty string. -/
def toBase36 (num : Int) : String :=
  if num = 0 then "0"
  else if 0 < num then ⟨(toDigitsRev 36 num.toNat).reverse⟩
  else ⟨[]⟩

/-- Python whitespace stripped by `int()` (ASCII part). -/
def isPySpace (c : Char) : Bool :=
  c = ' ' || c = '\t' || c = '\n' || c = '\r' || c = '\x0b' || c = '\x0c'

/-- Digit value accepted by Python `int(s, base)`: `0–9`, and both
lowercase and uppercase letters for values 10–35. -/
def digitVal (c : Char) : Option Nat :=
  if '0' ≤ c ∧ c ≤ '9' then some (c.toNat - '0'.toNat)
  else if 'a' ≤ c ∧ c ≤ 'z' then some (c.toNat - 'a'.toNat + 10)
  else if 'A' ≤ c ∧ c ≤ 'Z' then some (c.toNat - 'A'.toNat + 10)
  else none

/-- Digit run of a Python integer literal: after the first digit, a single
underscore may separate digits (`1_2` is legal, `_1`, `1_`, `1__2` are not). -/
def parseDigitsCore (b : Nat) : List Char → Nat → Option Nat
  | [], acc => some acc
  | c :: cs, acc =>
    if c = '_' then
      match cs with
      | [] => none
      | d :: rest =>
        match digitVal d with
        | some v => if v < b then parseDigitsCore b rest (acc * b + v) else none
        | none => none
    else
      match digitVal c with
      | some v => if v < b then parseDigitsCore b cs (acc * b + v) else none
      | none => none

/-- Digit run of a Python integer literal, rejecting a leading underscore
and the empty run. -/
def parseDigits (b : Nat) (l : List Char) : Option Nat :=
  match l with
  | [] => none
  | c :: _ => if c = '_' then none else parseDigitsCore b l 0

/-- Python `int(s, b)` for `2 ≤ b ≤ 36` without a base prefix: strip
surrounding whitespace, accept one optional sign, then a digit run.
`none` models a raised `ValueError`. -/
def pythonIntBase (b : Nat) (l : List Char) : Option Int :=
  let l1 := ((l.dropWhile isPySpace).reverse.dropWhile isPySpace).reverse
  match l1 with
  | [] => none
  | c :: rest =>
    if c = '+' then (parseDigits b rest).map (fun n => (n : Int))
    else if c = '-' then (parseDigits b rest).map (fun n => -(n : Int))
    else (parseDigits b (c :: rest)).map (fun n => (n : Int))

/-- Embeds `_from_base36(s) = int(s, 36)`; `none` models the raised `ValueError`. -/
def fromBase36 (s : String) : Option Int :=
  pythonIntBase 36 s.data

/-- Python `str(n)` for a natural number (decimal digits, `"0"` for zero). -/
def natRepr (n : Nat) : List Char :=
  if n = 0 then ['0'] else (toDigitsRev 10 n).reverse

/-- Python `str(i)` for an integer. -/
def intRepr (i : Int) : List Char :=
  if i < 0 then '-' :: natRepr i.natAbs else natRepr i.toNat

/-- Python format `f"{i:0wd}"`: zero-pad the decimal representation to total
width `w`; the sign of a negative number counts toward the width and the
padding goes after it. -/
def pyZFill (w : Nat) (i : Int) : List Char :=
  if i < 0 then
    '-' :: (List.replicate (w - 1 - (natRepr i.natAbs).length) '0' ++ natRepr i.natAbs)
  else
    List.replicate (w - (natRepr i.toNat).length) '0' ++ natRepr i.toNat

/-- The characters of `f"{page:03d}{volume:02d}{shelf}{wall}"` from
`search_text` / `get_text_from_address`. -/
def libCoordStr (page volume shelf wall : Int) : List Char :=
  pyZFill 3 page ++ pyZFill 2 volume ++ intRepr shelf ++ intRepr wall

/-- Embeds `int(f"{page:03d}{volume:02d}{shelf}{wall}")`; `none` models a raised
`ValueError` (possible when a middle field is negative). -/
def libraryCoordinate (page volume shelf wall : Int) : Option Int :=
  pythonIntBase 10 (libCoordStr page volume shelf wall)

/-- Embeds `_normalize_text(text)`: lowercase, replace characters outside the
29-symbol alphabet with space, then pad with spaces or truncate to exactly
`PAGE_LENGTH` characters. -/
def normalizeText (text : String) : String :=
  let filtered := text.data.map
    (fun c => if c.toLower ∈ CHARSET.data then c.toLower else ' ')
  if filtered.length < PAGE_LENGTH then
    ⟨filtered ++ List.replicate (PAGE_LENGTH - filtered.length) ' '⟩
  else
    ⟨filtered.take PAGE_LENGTH⟩

/-- Embeds `for i, c in enumerate(reversed(text)): text_value += _char_to_value(c) * 29**i`,
with `i` starting at the given index. -/
def textValueRev : List Char → Nat → Nat
  | [], _ => 0
  | c :: cs, i => charToValue c * CHARSET_LENGTH ^ i + textValueRev cs (i + 1)

/-- The base-29 value of a page text (last character least significant). -/
def textValue (l : List Char) : Nat :=
  textValueRev l.reverse 0

/-- Embeds `search_text(text, wall, shelf, volume, page)`; `none` models a raised
`ValueError` from the coordinate f-string parse. -/
def searchText (text : String) (wall shelf volume page : Int) :
    Option (String × Int × Int × Int × Int) :=
  match libraryCoordinate page volume shelf wall with
  | none => none
  | some lc =>
    let t := normalizeText text
    let tv : Nat := textValue t.data
    let combined : Int := lc * (CHARSET_LENGTH : Int) ^ PAGE_LENGTH + (tv : Int)
    some (toBase36 combined, wall, shelf, volume, page)

/-- The decode loop of `get_text_from_address`: `PAGE_LENGTH` iterations of
`chars.append(_value_to_char(remaining % 29)); remaining //= 29`, in order
of extraction (least significant first). -/
def decodeLoop : Nat → Int → List Char
  | 0, _ => []
  | n + 1, remaining =>
    valueToChar (Int.emod remaining (CHARSET_LENGTH : Int)) ::
      decodeLoop n (Int.ediv remaining (CHARSET_LENGTH : Int))

/-- Embeds `get_text_from_address(hex_name, wall, shelf, volume, page)`; `none`
models a raised `ValueError` (from the coordinate f-string or the base-36
parse). -/
def getTextFromAddress (hexName : String) (wall shelf volume page : Int) :
    Option String :=
  match libraryCoordinate page volume shelf wall, fromBase36 hexName with
  | some lc, some combined =>
    let tv : Int := combined - lc * (CHARSET_LENGTH : Int) ^ PAGE_LENGTH
    some ⟨(decodeLoop PAGE_LENGTH tv).reverse⟩
  | _, _ => none

/-- Embeds `coordinates_to_url(hex_name, wall, shelf, volume, page)`. -/
def coordinatesToUrl (hexName : String) (wall shelf volume page : Int) : String :=
  ⟨"https://libraryofbabel.info/book.cgi".data ++
    ('?' :: (hexName.data ++
      (':' :: (intRepr wall ++
        (':' :: (intRepr shelf ++
          (':' :: (pyZFill 2 volume ++
            (':' :: pyZFill 3 page)))))))))⟩

/-- Python `s.split(sep)` for a one-character separator: always at least one
field, empty fields kept. -/
def splitOnChar (sep : Char) : List Char → List (List Char)
  | [] => [[]]
  | c :: cs =>
    if c = sep then [] :: splitOnChar sep cs
    else
      match splitOnChar sep cs with
      | [] => [[c]]
      | h :: t => (c :: h) :: t

/-- Embeds the query isolation step of `parse_url`: when the string contains
a question mark, take element 1 of the split on that character — the part of
the string between the first question mark and the second (or the end). -/
def queryPart (l : List Char) : List Char :=
  if l.contains '?' then (splitOnChar '?' l).getD 1 [] else l

/-- Embeds `parse_url(url)`; `none` models a raised `ValueError` (wrong field
count, or a coordinate field rejected by `int()`). -/
def parseUrl (url : String) : Option (String × Int × Int × Int × Int) :=
  let parts := splitOnChar ':' (queryPart url.data)
  if parts.length = 5 then
    match pythonIntBase 10 (parts.getD 1 []), pythonIntBase 10 (parts.getD 2 []),
        pythonIntBase 10 (parts.getD 3 []), pythonIntBase 10 (parts.getD 4 []) with
    | some w, some s, some v, some p => some (⟨parts.getD 0 []⟩, w, s, v, p)
    | _, _, _, _ => none
  else none

/-! ### Digit-string machinery -/

/-- Value of a digit string in base `b`, most significant digit first. -/
def digitsVal (b : Nat) (l : List Char) : Nat :=
  l.foldl (fun a c => a * b + (digitVal c).getD 0) 0

/-- A character acceptable as a digit of base `b`. -/
def DigitOk (b : Nat) (c : Char) : Prop :=
  (digitVal c).isSome = true ∧ (digitVal c).getD 0 < b

instance (b : Nat) (c : Char) : Decidable (DigitOk b c) := by
  unfold DigitOk
  infer_instance

theorem digitsVal_nil (b : Nat) : digitsVal b [] = 0 := rfl

theorem foldl_digits_init (b : Nat) (l : List Char) (init : Nat) :
    l.foldl (fun a c => a * b + (digitVal c).getD 0) init
      = init * b ^ l.length + digitsVal b l := by
  induction l generalizing init with
  | nil => simp [digitsVal]
  | cons c cs ih =>
    have h1 := ih (init * b + (digitVal c).getD 0)
    have h2 := ih ((digitVal c).getD 0)
    simp only [List.foldl_cons, List.length_cons] at *
    rw [h1]
    have : digitsVal b (c :: cs)
        = (digitVal c).getD 0 * b ^ cs.length + digitsVal b cs := by
      simp only [digitsVal, List.foldl_cons, Nat.zero_mul, Nat.zero_add]
      exact h2
    rw [this]
    ring

theorem digitsVal_cons (b : Nat) (c : Char) (cs : List Char) :
    digitsVal b (c :: cs) = (digitVal c).getD 0 * b ^ cs.length + digitsVal b cs := by
  simp only [digitsVal, List.foldl_cons, Nat.zero_mul, Nat.zero_add]
  exact foldl_digits_init b cs ((digitVal c).getD 0)

theorem digitsVal_append (b : Nat) (x y : List Char) :
    digitsVal b (x ++ y) = digitsVal b x * b ^ y.length + digitsVal b y := by
  simp only [digitsVal, List.foldl_append]
  exact foldl_digits_init b y _

theorem digitsVal_append_singleton (b : Nat) (x : List Char) (c : Char) :
    digitsVal b (x ++ [c]) = digitsVal b x * b + (digitVal c).getD 0 := by
  rw [digitsVal_append]
  simp [digitsVal]

theorem digitVal_underscore : digitVal '_' = none := by decide

theorem parseDigitsCore_digits (b : Nat) (l : List Char)
    (h : ∀ c ∈ l, DigitOk b c) (acc : Nat) :
    parseDigitsCore b l acc
      = some (l.foldl (fun a c => a * b + (digitVal c).getD 0) acc) := by
  induction l generalizing acc with
  | nil => rfl
  | cons c cs ih =>
    have hc : DigitOk b c := h c (List.mem_cons_self c cs)
    have hcs : ∀ x ∈ cs, DigitOk b x := fun x hx => h x (List.mem_cons_of_mem c hx)
    have hne : c ≠ '_' := by
      intro hceq
      rw [hceq] at hc
      exact absurd hc.1 (by decide)
    obtain ⟨v, hv⟩ := Option.isSome_iff_exists.mp hc.1
    have hvb : v < b := by
      have := hc.2
      rw [hv] at this
      simpa using this
    have hstep : parseDigitsCore b (c :: cs) acc = parseDigitsCore b cs (acc * b + v) := by
      conv_lhs => rw [parseDigitsCore.eq_def]
      simp [if_neg hne, hv, hvb]
    rw [hstep, ih hcs, List.foldl_cons, hv]
    rfl

theorem parseDigits_digits (b : Nat) (l : List Char) (hne : l ≠ [])
    (h : ∀ c ∈ l, DigitOk b c) :
    parseDigits b l = some (digitsVal b l) := by
  match l, hne with
  | c :: cs, _ =>
    have hc : DigitOk b c := h c (List.mem_cons_self c cs)
    have hund : c ≠ '_' := by
      intro hceq
      rw [hceq] at hc
      exact absurd hc.1 (by decide)
    simp only [parseDigits, if_neg hund]
    exact parseDigitsCore_digits b (c :: cs) h 0

theorem digitOk_not_space {b : Nat} {c : Char} (h : DigitOk b c) :
    isPySpace c = false := by
  by_contra hsp
  have hsp' : isPySpace c = true := by
    cases hb : isPySpace c with
    | false => exact absurd hb hsp
    | true => rfl
  have : c = ' ' ∨ c = '\t' ∨ c = '\n' ∨ c = '\r' ∨ c = '\x0b' ∨ c = '\x0c' := by
    simp only [isPySpace, Bool.or_eq_true, decide_eq_true_eq] at hsp'
    tauto
  rcases this with h1 | h1 | h1 | h1 | h1 | h1 <;>
    (rw [h1] at h; exact absurd h.1 (by decide))

theorem dropWhile_eq_self_of (p : Char → Bool) (l : List Char)
    (h : ∀ c ∈ l, p c = false) : l.dropWhile p = l := by
  cases l with
  | nil => rfl
  | cons c cs =>
    rw [List.dropWhile_cons, h c (List.mem_cons_self c cs)]
    simp

theorem pythonIntBase_digits (b : Nat) (l : List Char) (hne : l ≠ [])
    (h : ∀ c ∈ l, DigitOk b c) :
    pythonIntBase b l = some ((digitsVal b l : Nat) : Int) := by
  have hnsp : ∀ c ∈ l, isPySpace c = false := fun c hc => digitOk_not_space (h c hc)
  have hd1 : l.dropWhile isPySpace = l := dropWhile_eq_self_of _ _ hnsp
  have hd2 : l.reverse.dropWhile isPySpace = l.reverse :=
    dropWhile_eq_self_of _ _ (fun c hc => hnsp c (List.mem_reverse.mp hc))
  unfold pythonIntBase
  rw [hd1, hd2, List.reverse_reverse]
  match l, hne with
  | c :: cs, _ =>
    have hc : DigitOk b c := h c (List.mem_cons_self c cs)
    have hplus : c ≠ '+' := by
      intro hceq
      rw [hceq] at hc
      exact absurd hc.1 (by decide)
    have hminus : c ≠ '-' := by
      intro hceq
      rw [hceq] at hc
      exact absurd hc.1 (by decide)
    simp only [if_neg hplus, if_neg hminus]
    rw [parseDigits_digits b (c :: cs) (by simp) h]
    rfl

/-! ### Digit expansions: correctness of `toDigitsRev`, `natRepr`, `pyZFill` -/

theorem base36_digit_spec :
    ∀ k, k < 36 → digitVal (BASE36_DIGITS.data.getD k ' ') = some k := by
  decide

theorem toDigitsRev_zero (b : Nat) : toDigitsRev b 0 = [] := rfl

theorem toDigitsRevAux_congr (b : Nat) (hb : 2 ≤ b) :
    ∀ n f1 f2, n ≤ f1 → n ≤ f2 → toDigitsRevAux b f1 n = toDigitsRevAux b f2 n := by
  intro n
  induction n using Nat.strong_induction_on with
  | _ n ih =>
    intro f1 f2 h1 h2
    match n, f1, f2, h1, h2 with
    | 0, 0, 0, _, _ => rfl
    | 0, 0, g2 + 1, _, _ => rfl
    | 0, g1 + 1, 0, _, _ => rfl
    | 0, g1 + 1, g2 + 1, _, _ => rfl
    | m + 1, g1 + 1, g2 + 1, h1, h2 =>
      have hble : ¬ b ≤ 1 := by omega
      simp only [toDigitsRevAux, if_neg hble]
      have hq : (m + 1) / b < m + 1 := Nat.div_lt_self (by omega) (by omega)
      have hg1 : (m + 1) / b ≤ g1 := by omega
      have hg2 : (m + 1) / b ≤ g2 := by omega
      rw [ih ((m + 1) / b) hq g1 g2 hg1 hg2]

theorem toDigitsRev_pos (b n : Nat) (hb : 2 ≤ b) (hn : 0 < n) :
    toDigitsRev b n = BASE36_DIGITS.data.getD (n % b) ' ' :: toDigitsRev b (n / b) := by
  match n, hn with
  | m + 1, _ =>
    have hble : ¬ b ≤ 1 := by omega
    show toDigitsRevAux b (m + 1) (m + 1) = _
    simp only [toDigitsRevAux, if_neg hble]
    have hq : (m + 1) / b < m + 1 := Nat.div_lt_self (by omega) (by omega)
    rw [toDigitsRevAux_congr b hb ((m + 1) / b) m ((m + 1) / b) (by omega) (le_refl _)]
    rfl

theorem toDigitsRev_ok (b : Nat) (hb : 2 ≤ b) (hb36 : b ≤ 36) :
    ∀ n, (∀ c ∈ toDigitsRev b n, DigitOk b c) ∧
      digitsVal b (toDigitsRev b n).reverse = n := by
  intro n
  induction n using Nat.strong_induction_on with
  | _ n ih =>
    rcases Nat.eq_zero_or_pos n with hz | hp
    · subst hz
      rw [toDigitsRev_zero]
      exact ⟨by simp, rfl⟩
    · have hdiv : n / b < n := Nat.div_lt_self hp (by omega)
      obtain ⟨ihok, ihval⟩ := ih (n / b) hdiv
      have hmod : n % b < b := Nat.mod_lt n (by omega)
      have hdg : digitVal (BASE36_DIGITS.data.getD (n % b) ' ') = some (n % b) :=
        base36_digit_spec (n % b) (lt_of_lt_of_le hmod hb36)
      rw [toDigitsRev_pos b n hb hp]
      constructor
      · intro c hc
        rcases List.mem_cons.mp hc with hc | hc
        · subst hc
          exact ⟨by rw [hdg]; rfl, by rw [hdg]; simpa using hmod⟩
        · exact ihok c hc
      · rw [List.reverse_cons, digitsVal_append_singleton, ihval, hdg]
        simp only [Option.getD_some]
        rw [Nat.mul_comm (n / b) b]
        exact Nat.div_add_mod n b

theorem toDigitsRev_length_le (b : Nat) (hb : 2 ≤ b) :
    ∀ k n, n < b ^ k → (toDigitsRev b n).length ≤ k := by
  intro k
  induction k with
  | zero =>
    intro n hn
    have : n = 0 := by simpa using hn
    subst this
    simp [toDigitsRev_zero]
  | succ k ih =>
    intro n hn
    rcases Nat.eq_zero_or_pos n with hz | hp
    · subst hz
      simp [toDigitsRev_zero]
    · rw [toDigitsRev_pos b n hb hp]
      have hq : n / b < b ^ k := by
        have hbpos : 0 < b := by omega
        rw [Nat.div_lt_iff_lt_mul hbpos]
        calc n < b ^ (k + 1) := hn
          _ = b ^ k * b := by ring
      simpa using ih (n / b) hq

theorem natRepr_ne_nil (n : Nat) : natRepr n ≠ [] := by
  unfold natRepr
  split
  · simp
  · rename_i hz
    rw [toDigitsRev_pos 10 n (by omega) (Nat.pos_of_ne_zero hz)]
    simp

theorem natRepr_ok (n : Nat) :
    (∀ c ∈ natRepr n, DigitOk 10 c) ∧ digitsVal 10 (natRepr n) = n := by
  unfold natRepr
  split
  · rename_i hz
    subst hz
    exact ⟨by decide, by decide⟩
  · rename_i hz
    obtain ⟨hok, hval⟩ := toDigitsRev_ok 10 (by omega) (by omega) n
    exact ⟨fun c hc => hok c (List.mem_reverse.mp hc), hval⟩

theorem natRepr_length_le (n k : Nat) (hk : 1 ≤ k) (hn : n < 10 ^ k) :
    (natRepr n).length ≤ k := by
  unfold natRepr
  split
  · simpa using hk
  · rw [List.length_reverse]
    exact toDigitsRev_length_le 10 (by omega) k n hn

theorem digitsVal_replicate_zero (b k : Nat) (l : List Char) :
    digitsVal b (List.replicate k '0' ++ l) = digitsVal b l := by
  rw [digitsVal_append]
  have : digitsVal b (List.replicate k '0') = 0 := by
    induction k with
    | zero => rfl
    | succ k ih =>
      rw [List.replicate_succ, digitsVal_cons]
      simpa [digitVal] using ih
  rw [this]
  simp

theorem zero_digit_ok : DigitOk 10 '0' := by decide

/-- Behaviour of `pyZFill` on a nonnegative argument: all decimal digits,
value unchanged, and exact width when the number fits. -/
theorem pyZFill_nonneg (w : Nat) (i : Int) (hi : 0 ≤ i) :
    (∀ c ∈ pyZFill w i, DigitOk 10 c) ∧
      digitsVal 10 (pyZFill w i) = i.toNat ∧
      ((natRepr i.toNat).length ≤ w → (pyZFill w i).length = w) := by
  have hneg : ¬ i < 0 := by omega
  unfold pyZFill
  rw [if_neg hneg]
  obtain ⟨hok, hval⟩ := natRepr_ok i.toNat
  refine ⟨?_, ?_, ?_⟩
  · intro c hc
    rcases List.mem_append.mp hc with hc | hc
    · rw [List.eq_of_mem_replicate hc]
      exact zero_digit_ok
    · exact hok c hc
  · rw [digitsVal_replicate_zero, hval]
  · intro hle
    rw [List.length_append, List.length_replicate]
    omega

/-- The library coordinate `int(f"{page:03d}{volume:02d}{shelf}{wall}")` on
nonnegative fields: every character is a decimal digit and the parse
succeeds with a nonnegative value. -/
theorem libraryCoordinate_nonneg (p v s w : Int)
    (hp : 0 ≤ p) (hv : 0 ≤ v) (hs : 0 ≤ s) (hw : 0 ≤ w) :
    libraryCoordinate p v s w
      = some ((digitsVal 10 (libCoordStr p v s w) : Nat) : Int) := by
  have hps : ¬ s < 0 := by omega
  have hpw : ¬ w < 0 := by omega
  have hds : ∀ c ∈ libCoordStr p v s w, DigitOk 10 c := by
    intro c hc
    unfold libCoordStr at hc
    simp only [List.mem_append] at hc
    rcases hc with ((hc | hc) | hc) | hc
    · exact ((pyZFill_nonneg 3 p hp).1) c hc
    · exact ((pyZFill_nonneg 2 v hv).1) c hc
    · unfold intRepr at hc
      rw [if_neg hps] at hc
      exact (natRepr_ok s.toNat).1 c hc
    · unfold intRepr at hc
      rw [if_neg hpw] at hc
      exact (natRepr_ok w.toNat).1 c hc
  have hne : libCoordStr p v s w ≠ [] := by
    unfold libCoordStr intRepr
    rw [if_neg hps, if_neg hpw]
    intro hnil
    have := natRepr_ne_nil w.toNat
    simp only [List.append_eq_nil] at hnil
    exact this hnil.2
  unfold libraryCoordinate
  exact pythonIntBase_digits 10 _ hne hds

/-- The library coordinate for fields that fit their fixed decimal widths
equals the concatenated decimal value `page·10⁴ + volume·10² + shelf·10 + wall`. -/
theorem libraryCoordinate_fits (p v s w : Int)
    (hp0 : 0 ≤ p) (hp : p ≤ 999) (hv0 : 0 ≤ v) (hv : v ≤ 99)
    (hs0 : 0 ≤ s) (hs : s ≤ 9) (hw0 : 0 ≤ w) (hw : w ≤ 9) :
    libraryCoordinate p v s w = some (p * 10000 + v * 100 + s * 10 + w) := by
  rw [libraryCoordinate_nonneg p v s w hp0 hv0 hs0 hw0]
  have hps : ¬ s < 0 := by omega
  have hpw : ¬ w < 0 := by omega
  have hlenp : (pyZFill 3 p).length = 3 :=
    (pyZFill_nonneg 3 p hp0).2.2
      (natRepr_length_le p.toNat 3 (by omega) (by omega))
  have hlenv : (pyZFill 2 v).length = 2 :=
    (pyZFill_nonneg 2 v hv0).2.2
      (natRepr_length_le v.toNat 2 (by omega) (by omega))
  have hlens : (intRepr s).length = 1 := by
    unfold intRepr
    rw [if_neg hps]
    have h1 : (natRepr s.toNat).length ≤ 1 :=
      natRepr_length_le s.toNat 1 (by omega) (by omega)
    have h2 : natRepr s.toNat ≠ [] := natRepr_ne_nil s.toNat
    have h3 : 0 < (natRepr s.toNat).length := List.length_pos.mpr h2
    omega
  have hlenw : (intRepr w).length = 1 := by
    unfold intRepr
    rw [if_neg hpw]
    have h1 : (natRepr w.toNat).length ≤ 1 :=
      natRepr_length_le w.toNat 1 (by omega) (by omega)
    have h2 : natRepr w.toNat ≠ [] := natRepr_ne_nil w.toNat
    have h3 : 0 < (natRepr w.toNat).length := List.length_pos.mpr h2
    omega
  have hvp : digitsVal 10 (pyZFill 3 p) = p.toNat := (pyZFill_nonneg 3 p hp0).2.1
  have hvv : digitsVal 10 (pyZFill 2 v) = v.toNat := (pyZFill_nonneg 2 v hv0).2.1
  have hvs : digitsVal 10 (intRepr s) = s.toNat := by
    unfold intRepr
    rw [if_neg hps]
    exact (natRepr_ok s.toNat).2
  have hvw : digitsVal 10 (intRepr w) = w.toNat := by
    unfold intRepr
    rw [if_neg hpw]
    exact (natRepr_ok w.toNat).2
  have hval : digitsVal 10 (libCoordStr p v s w)
      = p.toNat * 10000 + v.toNat * 100 + s.toNat * 10 + w.toNat := by
    unfold libCoordStr
    rw [digitsVal_append, digitsVal_append, digitsVal_append]
    rw [hvp, hvv, hvs, hvw]
    simp only [List.length_append, hlenv, hlens, hlenw]
    ring
  rw [hval]
  congr 1
  push_cast
  omega

/-! ### Base-36 round trip -/

theorem fromBase36_toBase36 (n : Nat) :
    fromBase36 (toBase36 (n : Int)) = some (n : Int) := by
  rcases Nat.eq_zero_or_pos n with hz | hp
  · subst hz
    decide
  · have hnz : (n : Int) ≠ 0 := by
      simp only [ne_eq, Nat.cast_eq_zero]
      omega
    have hpos : (0 : Int) < n := by exact_mod_cast hp
    unfold toBase36
    rw [if_neg hnz, if_pos hpos]
    obtain ⟨hok, hval⟩ := toDigitsRev_ok 36 (by omega) (le_refl 36) ((n : Int).toNat)
    have htn : (n : Int).toNat = n := Int.toNat_ofNat n
    have hne : (toDigitsRev 36 (n : Int).toNat).reverse ≠ [] := by
      rw [htn, toDigitsRev_pos 36 n (by omega) hp]
      simp
    unfold fromBase36
    rw [pythonIntBase_digits 36 _ hne (fun c hc => hok c (List.mem_reverse.mp hc))]
    rw [hval, htn]

/-! ### Charset and normalization lemmas -/

theorem CHARSET_LENGTH_eq : CHARSET_LENGTH = 29 := by decide

theorem charset_roundtrip :
    ∀ c ∈ CHARSET.data, charToValue c < 29 ∧ valueToChar ((charToValue c : Nat) : Int) = c := by
  decide

theorem valueToChar_mem_charset (v : Int) : valueToChar v ∈ CHARSET.data := by
  unfold valueToChar
  split
  · rename_i hv
    have hle : v.toNat ≤ 25 := by omega
    revert hle
    have : ∀ k : Nat, k ≤ 25 → Char.ofNat ('a'.toNat + k) ∈ CHARSET.data := by decide
    exact this v.toNat
  · split
    · decide
    · split
      · decide
      · split
        · decide
        · decide

theorem normalizeText_length (t : String) :
    (normalizeText t).length = PAGE_LENGTH := by
  unfold normalizeText
  simp only [String.length]
  split
  · rename_i hlt
    simp only [List.length_append, List.length_replicate, List.length_map] at *
    omega
  · rename_i hge
    simp only [List.length_take, List.length_map] at *
    omega

theorem normalizeText_mem (t : String) :
    ∀ c ∈ (normalizeText t).data, c ∈ CHARSET.data := by
  unfold normalizeText
  intro c hc
  have hmap : ∀ x ∈ t.data.map
      (fun c => if c.toLower ∈ CHARSET.data then c.toLower else ' '),
      x ∈ CHARSET.data := by
    intro x hx
    obtain ⟨y, _, hy⟩ := List.mem_map.mp hx
    by_cases hmem : y.toLower ∈ CHARSET.data
    · rw [if_pos hmem] at hy
      rw [← hy]
      exact hmem
    · rw [if_neg hmem] at hy
      rw [← hy]
      decide
  simp only at hc
  split at hc
  · rcases List.mem_append.mp hc with hc | hc
    · exact hmap c hc
    · rw [List.eq_of_mem_replicate hc]
      decide
  · exact hmap c (List.mem_of_mem_take hc)

/-! ### Horner form of the text value and the decode loop -/

/-- Base-29 Horner value of a text, most significant (first) character first. -/
def horner29 (l : List Char) : Nat :=
  l.foldl (fun a c => a * CHARSET_LENGTH + charToValue c) 0

theorem horner29_foldl_init (l : List Char) (init : Nat) :
    l.foldl (fun a c => a * CHARSET_LENGTH + charToValue c) init
      = init * CHARSET_LENGTH ^ l.length + horner29 l := by
  induction l generalizing init with
  | nil => simp [horner29]
  | cons c cs ih =>
    simp only [List.foldl_cons, List.length_cons]
    rw [ih (init * CHARSET_LENGTH + charToValue c)]
    have : horner29 (c :: cs)
        = charToValue c * CHARSET_LENGTH ^ cs.length + horner29 cs := by
      simp only [horner29, List.foldl_cons, Nat.zero_mul, Nat.zero_add]
      exact ih (charToValue c)
    rw [this]
    ring

theorem horner29_append_singleton (l : List Char) (c : Char) :
    horner29 (l ++ [c]) = horner29 l * CHARSET_LENGTH + charToValue c := by
  simp only [horner29, List.foldl_append, List.foldl_cons, List.foldl_nil]

theorem textValueRev_eq (m : List Char) :
    ∀ i, textValueRev m i = horner29 m.reverse * CHARSET_LENGTH ^ i := by
  induction m with
  | nil => intro i; simp [textValueRev, horner29]
  | cons c cs ih =>
    intro i
    simp only [textValueRev, List.reverse_cons]
    rw [ih (i + 1), horner29_append_singleton]
    ring

theorem textValue_eq_horner (l : List Char) : textValue l = horner29 l := by
  unfold textValue
  rw [textValueRev_eq l.reverse 0, List.reverse_reverse]
  ring

theorem horner29_lt (l : List Char) (h : ∀ c ∈ l, charToValue c < 29) :
    horner29 l < 29 ^ l.length := by
  induction l using List.reverseRecOn with
  | nil => decide
  | append_singleton l c ih =>
    have hc : charToValue c < 29 := h c (by simp)
    have hl : horner29 l < 29 ^ l.length := ih (fun x hx => h x (by simp [hx]))
    rw [horner29_append_singleton, CHARSET_LENGTH_eq]
    simp only [List.length_append, List.length_cons, List.length_nil]
    have hpow : (0:Nat) < 29 ^ l.length := Nat.pos_pow_of_pos _ (by omega)
    calc horner29 l * 29 + charToValue c
        ≤ (29 ^ l.length - 1) * 29 + 28 := by
          have : horner29 l ≤ 29 ^ l.length - 1 := by omega
          have h29 : horner29 l * 29 ≤ (29 ^ l.length - 1) * 29 :=
            Nat.mul_le_mul_right 29 this
          omega
      _ < 29 ^ (l.length + 1) := by
          rw [Nat.pow_succ]
          omega

theorem int_emod_ofNat (a b : Nat) :
    Int.emod ((a : Nat) : Int) ((b : Nat) : Int) = ((a % b : Nat) : Int) := rfl

theorem int_ediv_ofNat (a b : Nat) :
    Int.ediv ((a : Nat) : Int) ((b : Nat) : Int) = ((a / b : Nat) : Int) := rfl

theorem decodeLoop_length (n : Nat) (x : Int) : (decodeLoop n x).length = n := by
  induction n generalizing x with
  | zero => rfl
  | succ n ih => simp [decodeLoop, ih]

theorem decodeLoop_mem_charset (n : Nat) (x : Int) :
    ∀ c ∈ decodeLoop n x, c ∈ CHARSET.data := by
  induction n generalizing x with
  | zero => simp [decodeLoop]
  | succ n ih =>
    intro c hc
    simp only [decodeLoop, List.mem_cons] at hc
    rcases hc with hc | hc
    · subst hc
      exact valueToChar_mem_charset _
    · exact ih _ c hc

theorem decodeLoop_horner (l : List Char) (h : ∀ c ∈ l, c ∈ CHARSET.data) :
    decodeLoop l.length ((horner29 l : Nat) : Int) = l.reverse := by
  induction l using List.reverseRecOn with
  | nil => rfl
  | append_singleton l c ih =>
    have hmem : ∀ x ∈ l, x ∈ CHARSET.data := fun x hx => h x (by simp [hx])
    have hc : c ∈ CHARSET.data := h c (by simp)
    have hcv : charToValue c < 29 := (charset_roundtrip c hc).1
    have hrt : valueToChar ((charToValue c : Nat) : Int) = c := (charset_roundtrip c hc).2
    rw [horner29_append_singleton, CHARSET_LENGTH_eq]
    have hlen : (l ++ [c]).length = l.length + 1 := by simp
    rw [hlen]
    show valueToChar (Int.emod _ _) :: decodeLoop l.length (Int.ediv _ _) = _
    have e1 : Int.emod ((horner29 l * 29 + charToValue c : Nat) : Int) ((29 : Nat) : Int)
        = ((charToValue c : Nat) : Int) := by
      rw [int_emod_ofNat]
      congr 1
      omega
    have e2 : Int.ediv ((horner29 l * 29 + charToValue c : Nat) : Int) ((29 : Nat) : Int)
        = ((horner29 l : Nat) : Int) := by
      rw [int_ediv_ofNat]
      congr 1
      omega
    have hcast29 : ((29 : Nat) : Int) = (CHARSET_LENGTH : Int) := by
      rw [CHARSET_LENGTH_eq]
    rw [← hcast29, e1, e2, hrt, ih hmem]
    simp

theorem textValueRev_sum (m : List Char) :
    ∀ j, textValueRev m j = ∑ i ∈ Finset.range m.length,
      charToValue (m.getD i ' ') * CHARSET_LENGTH ^ (j + i) := by
  induction m with
  | nil => intro j; simp [textValueRev]
  | cons c cs ih =>
    intro j
    simp only [textValueRev, List.length_cons]
    rw [Finset.sum_range_succ', ih (j + 1)]
    simp only [List.getD_cons_succ, List.getD_cons_zero, Nat.add_zero]
    have hsum : (∑ i ∈ Finset.range cs.length,
          charToValue (cs.getD i ' ') * CHARSET_LENGTH ^ (j + 1 + i))
        = ∑ i ∈ Finset.range cs.length,
          charToValue (cs.getD i ' ') * CHARSET_LENGTH ^ (j + (i + 1)) := by
      apply Finset.sum_congr rfl
      intro i _
      have hei : j + 1 + i = j + (i + 1) := by omega
      rw [hei]
    rw [hsum]
    exact Nat.add_comm _ _

theorem textValue_sum (l : List Char) :
    textValue l = ∑ i ∈ Finset.range l.length,
      charToValue (l.reverse.getD i ' ') * CHARSET_LENGTH ^ i := by
  unfold textValue
  rw [textValueRev_sum l.reverse 0]
  simp

/-! ### Claim theorems C1 and C2 -/

/-- C1: for every text `t` and every coordinate whose fields fit their fixed
decimal widths (page ≤ 3 digits, volume ≤ 2, shelf ≤ 1, wall ≤ 1, all
nonnegative), decoding the hex address produced by `search_text` with the
same coordinate returns exactly `_normalize_text t`. -/
theorem c1_encode_decode_roundtrip (t : String) (wall shelf volume page : Int)
    (hw0 : 0 ≤ wall) (hw9 : wall ≤ 9) (hs0 : 0 ≤ shelf) (hs9 : shelf ≤ 9)
    (hv0 : 0 ≤ volume) (hv99 : volume ≤ 99) (hp0 : 0 ≤ page) (hp999 : page ≤ 999) :
    ∃ hex, searchText t wall shelf volume page = some (hex, wall, shelf, volume, page) ∧
      getTextFromAddress hex wall shelf volume page = some (normalizeText t) := by
  have hlc := libraryCoordinate_fits page volume shelf wall
    hp0 hp999 hv0 hv99 hs0 hs9 hw0 hw9
  have hlenN : (normalizeText t).data.length = PAGE_LENGTH := normalizeText_length t
  have hmem : ∀ c ∈ (normalizeText t).data, c ∈ CHARSET.data := normalizeText_mem t
  have hlcNonneg : 0 ≤ page * 10000 + volume * 100 + shelf * 10 + wall := by omega
  have hlcCast : (((page * 10000 + volume * 100 + shelf * 10 + wall).toNat : Nat) : Int)
      = page * 10000 + volume * 100 + shelf * 10 + wall :=
    Int.toNat_of_nonneg hlcNonneg
  refine ⟨toBase36 ((((page * 10000 + volume * 100 + shelf * 10 + wall).toNat
      * 29 ^ PAGE_LENGTH + textValue (normalizeText t).data : Nat) : Int)), ?_, ?_⟩
  · unfold searchText
    rw [hlc]
    have hargs : (page * 10000 + volume * 100 + shelf * 10 + wall)
          * (CHARSET_LENGTH : Int) ^ PAGE_LENGTH
          + ((textValue (normalizeText t).data : Nat) : Int)
        = ((((page * 10000 + volume * 100 + shelf * 10 + wall).toNat
            * 29 ^ PAGE_LENGTH + textValue (normalizeText t).data : Nat) : Int)) := by
      push_cast [CHARSET_LENGTH_eq]
      try rw [hlcCast]
      try ring
    simp only
    rw [hargs]
  · unfold getTextFromAddress
    rw [hlc, fromBase36_toBase36]
    simp only
    have harg : ((((page * 10000 + volume * 100 + shelf * 10 + wall).toNat
          * 29 ^ PAGE_LENGTH + textValue (normalizeText t).data : Nat) : Int))
        - (page * 10000 + volume * 100 + shelf * 10 + wall)
            * (CHARSET_LENGTH : Int) ^ PAGE_LENGTH
        = ((textValue (normalizeText t).data : Nat) : Int) := by
      push_cast [CHARSET_LENGTH_eq]
      try rw [hlcCast]
      try ring
    rw [harg]
    rw [textValue_eq_horner, ← hlenN, decodeLoop_horner _ hmem, List.reverse_reverse]

/-- C2: for coordinate fields fitting their fixed decimal widths,
`search_text` computes the hex address as the base-36 representation of
`location·29^3200 + textValue`, with `location` the decimal concatenation
`page(3) volume(2) shelf(1) wall(1)` and
`textValue = Σ symbolToDigit(cᵢ)·29^i`, `i` counted from the last character
of the normalized text. -/
theorem c2_encode_formula (t : String) (wall shelf volume page : Int)
    (hw0 : 0 ≤ wall) (hw9 : wall ≤ 9) (hs0 : 0 ≤ shelf) (hs9 : shelf ≤ 9)
    (hv0 : 0 ≤ volume) (hv99 : volume ≤ 99) (hp0 : 0 ≤ page) (hp999 : page ≤ 999) :
    searchText t wall shelf volume page = some (toBase36
      ((page * 10000 + volume * 100 + shelf * 10 + wall) * 29 ^ 3200 +
        ((∑ i ∈ Finset.range 3200,
          charToValue ((normalizeText t).data.reverse.getD i ' ') * 29 ^ i : Nat) : Int)),
      wall, shelf, volume, page) := by
  have hlc := libraryCoordinate_fits page volume shelf wall
    hp0 hp999 hv0 hv99 hs0 hs9 hw0 hw9
  have hlenN : (normalizeText t).data.length = PAGE_LENGTH := normalizeText_length t
  have hPL : PAGE_LENGTH = 3200 := rfl
  unfold searchText
  rw [hlc]
  have h1 := textValue_sum (normalizeText t).data
  rw [hlenN, hPL, CHARSET_LENGTH_eq] at h1
  have hargs : (page * 10000 + volume * 100 + shelf * 10 + wall)
        * (CHARSET_LENGTH : Int) ^ PAGE_LENGTH
        + ((textValue (normalizeText t).data : Nat) : Int)
      = (page * 10000 + volume * 100 + shelf * 10 + wall) * 29 ^ 3200 +
        ((∑ i ∈ Finset.range 3200,
          charToValue ((normalizeText t).data.reverse.getD i ' ') * 29 ^ i : Nat) : Int) := by
    rw [h1, CHARSET_LENGTH_eq, hPL]
    norm_num
  simp only
  rw [hargs]

theorem c1_encode_decode_roundtrip_witness :
    ∃ hex, searchText "hello world" 1 1 1 1 = some (hex, 1, 1, 1, 1) ∧
      getTextFromAddress hex 1 1 1 1 = some (normalizeText "hello world") :=
  c1_encode_decode_roundtrip "hello world" 1 1 1 1 (by decide) (by decide)
    (by decide) (by decide) (by decide) (by decide) (by decide) (by decide)

theorem c2_encode_formula_witness :
    searchText "abc" 1 2 3 4 = some (toBase36
      ((4 * 10000 + 3 * 100 + 2 * 10 + 1) * 29 ^ 3200 +
        ((∑ i ∈ Finset.range 3200,
          charToValue ((normalizeText "abc").data.reverse.getD i ' ') * 29 ^ i : Nat) : Int)),
      1, 2, 3, 4) :=
  c2_encode_formula "abc" 1 2 3 4 (by decide) (by decide)
    (by decide) (by decide) (by decide) (by decide) (by decide) (by decide)

/-! ### Claim theorems C3 to C6 -/

/-- C3 counterexample: the address `"0"` parses as a base-36 integer, yet
`get_text_from_address` with the integer coordinate `wall = -1` raises
(the f-string `"001011-1"` is rejected by `int()`), contradicting
"for every integer coordinate ... never raises". -/
theorem c3_counterexample :
    fromBase36 "0" = some 0 ∧ getTextFromAddress "0" (-1) 1 1 1 = none := by
  constructor
  · decide
  · decide

theorem decode_mk_length (k : Nat) (x : Int) :
    (String.mk ((decodeLoop k x).reverse)).length = k := by
  show ((decodeLoop k x).reverse).length = k
  rw [List.length_reverse, decodeLoop_length]

theorem decode_mk_mem (k : Nat) (x : Int) :
    ∀ c ∈ (String.mk ((decodeLoop k x).reverse)).data, c ∈ CHARSET.data := by
  intro c hc
  rw [List.mem_reverse] at hc
  exact decodeLoop_mem_charset _ _ c hc

/-- C3 (amended): for every hex string that parses as a base-36 integer and
every NONNEGATIVE integer coordinate, `get_text_from_address` performs no
validity check and never raises — even when the derived text value is
negative or exceeds `29^3200` it returns a string of exactly 3200 characters
drawn from the 29-symbol alphabet. -/
theorem c3_decode_total_nonneg (hexName : String) (wall shelf volume page : Int)
    (n : Int) (hhex : fromBase36 hexName = some n)
    (hw : 0 ≤ wall) (hs : 0 ≤ shelf) (hv : 0 ≤ volume) (hp : 0 ≤ page) :
    ∃ out : String, getTextFromAddress hexName wall shelf volume page = some out ∧
      out.length = 3200 ∧ ∀ c ∈ out.data, c ∈ CHARSET.data := by
  have hlc := libraryCoordinate_nonneg page volume shelf wall hp hv hs hw
  unfold getTextFromAddress
  rw [hlc, hhex]
  refine ⟨_, rfl, ?_, ?_⟩
  · exact decode_mk_length PAGE_LENGTH _
  · exact decode_mk_mem PAGE_LENGTH _

theorem c3_decode_total_nonneg_witness :
    ∃ out : String, getTextFromAddress "0" 1 1 1 1 = some out ∧
      out.length = 3200 ∧ ∀ c ∈ out.data, c ∈ CHARSET.data :=
  c3_decode_total_nonneg "0" 1 1 1 1 0 (by decide)
    (by decide) (by decide) (by decide) (by decide)

/-- C4 counterexample: `_from_base36` succeeds on `"Z"` although `'Z'` is
not one of the base-36 digits 0–9, a–z, contradicting "raises exactly on
strings containing a non-base-36-digit character". -/
theorem c4_counterexample :
    fromBase36 "Z" = some 35 ∧ 'Z' ∉ BASE36_DIGITS.data := by
  decide

/-- C4 (amended): `_from_base36` succeeds (with the base-36 value) on every
non-empty string consisting solely of base-36 digits 0–9, a–z; its failures
follow Python `int(·, 36)` literal syntax, which additionally accepts
uppercase digits, surrounding whitespace, one sign, and underscore
separators. -/
theorem c4_base36_digit_strings_parse (s : String) (hne : s.data ≠ [])
    (h : ∀ c ∈ s.data, c ∈ BASE36_DIGITS.data) :
    fromBase36 s = some ((digitsVal 36 s.data : Nat) : Int) := by
  apply pythonIntBase_digits 36 s.data hne
  intro c hc
  have hd : ∀ c ∈ BASE36_DIGITS.data, DigitOk 36 c := by decide
  exact hd c (h c hc)

theorem c4_base36_digit_strings_parse_witness :
    fromBase36 "z1" = some 1261 := by
  have h := c4_base36_digit_strings_parse "z1" (by decide) (by decide)
  rw [h]
  decide

theorem normalizeText_data (t : String) :
    (normalizeText t).data =
      if (t.data.map
          (fun c => if c.toLower ∈ CHARSET.data then c.toLower else ' ')).length
          < PAGE_LENGTH
      then t.data.map (fun c => if c.toLower ∈ CHARSET.data then c.toLower else ' ')
        ++ List.replicate (PAGE_LENGTH - (t.data.map
            (fun c => if c.toLower ∈ CHARSET.data then c.toLower else ' ')).length) ' '
      else (t.data.map
        (fun c => if c.toLower ∈ CHARSET.data then c.toLower else ' ')).take
          PAGE_LENGTH := by
  unfold normalizeText
  by_cases hc : (t.data.map
      (fun c => if c.toLower ∈ CHARSET.data then c.toLower else ' ')).length
      < PAGE_LENGTH
  · rw [if_pos hc, if_pos hc]
  · rw [if_neg hc, if_neg hc]

/-- C5: `_normalize_text` is total: for every input string it returns a
string of exactly 3200 characters, obtained by lowercasing, replacing every
character outside the 29-symbol alphabet with a space, right-padding with
spaces when shorter than 3200 and truncating to the first 3200 characters
when longer. -/
theorem c5_normalize_total (t : String) :
    (normalizeText t).length = 3200 ∧
    ∀ i, i < 3200 → (normalizeText t).data.getD i ' '
      = if i < t.data.length then
          (if (t.data.getD i ' ').toLower ∈ CHARSET.data
            then (t.data.getD i ' ').toLower else ' ')
        else ' ' := by
  have hPL : PAGE_LENGTH = 3200 := rfl
  constructor
  · exact normalizeText_length t
  · intro i hi
    rw [normalizeText_data]
    have hlenf : (t.data.map
        (fun c => if c.toLower ∈ CHARSET.data then c.toLower else ' ')).length
        = t.data.length := List.length_map _ _
    have hgf : i < t.data.length → ((t.data.map
        (fun c => if c.toLower ∈ CHARSET.data then c.toLower else ' ')).getD i ' '
        = if (t.data.getD i ' ').toLower ∈ CHARSET.data
            then (t.data.getD i ' ').toLower else ' ') := by
      intro hit
      rw [List.getD_eq_getElem?_getD, List.getElem?_map,
        List.getElem?_eq_getElem hit,
        List.getD_eq_getElem?_getD, List.getElem?_eq_getElem hit]
      rfl
    by_cases hit : i < t.data.length
    · rw [if_pos hit]
      split
      · rw [List.getD_eq_getElem?_getD, List.getElem?_append,
          if_pos (by omega), ← List.getD_eq_getElem?_getD]
        exact hgf hit
      · rw [List.getD_eq_getElem?_getD, List.getElem?_take,
          if_pos (by omega), ← List.getD_eq_getElem?_getD]
        exact hgf hit
    · rw [if_neg hit]
      split
      · rename_i hlt
        rw [List.getD_eq_getElem?_getD, List.getElem?_append,
          if_neg (by omega), List.getElem?_replicate, if_pos (by omega)]
        rfl
      · rename_i hge
        omega

theorem c5_normalize_total_witness :
    (normalizeText "Ab.").length = 3200 ∧
      (normalizeText "Ab.").data.getD 0 ' ' = 'a' := by
  refine ⟨(c5_normalize_total "Ab.").1, ?_⟩
  have h := (c5_normalize_total "Ab.").2 0 (by norm_num)
  rw [h]
  decide

/-- C6: base-36 invertibility and zero representation:
`_from_base36(_to_base36(n)) = n` for every nonnegative integer, the digits
are written most significant first using 0–9 then a–z
(`toBase36 35 = "z"`, `toBase36 36 = "10"`), and zero is the single
character `"0"`, never the empty string. -/
theorem c6_base36_invertible :
    (∀ n : Nat, fromBase36 (toBase36 (n : Int)) = some (n : Int)) ∧
    toBase36 0 = "0" ∧ toBase36 35 = "z" ∧ toBase36 36 = "10" := by
  refine ⟨fromBase36_toBase36, by decide, by decide, by decide⟩

/-! ### URL lemmas -/

theorem contains_eq_true_of_mem {l : List Char} {c : Char} (h : c ∈ l) :
    l.contains c = true :=
  List.elem_eq_true_of_mem h

theorem contains_eq_false_of_not_mem {l : List Char} {c : Char} (h : c ∉ l) :
    l.contains c = false := by
  rw [Bool.eq_false_iff]
  intro hc
  exact h (List.elem_iff.mp hc)

theorem splitOnChar_not_mem (sep : Char) (l : List Char) (h : sep ∉ l) :
    splitOnChar sep l = [l] := by
  induction l with
  | nil => rfl
  | cons c cs ih =>
    have hc : c ≠ sep := fun he => h (he ▸ List.mem_cons_self c cs)
    have hcs : sep ∉ cs := fun hm => h (List.mem_cons_of_mem c hm)
    simp only [splitOnChar, if_neg hc, ih hcs]

theorem splitOnChar_append (sep : Char) (a b : List Char) (h : sep ∉ a) :
    splitOnChar sep (a ++ sep :: b) = a :: splitOnChar sep b := by
  induction a with
  | nil =>
    simp [splitOnChar]
  | cons c cs ih =>
    have hc : c ≠ sep := fun he => h (he ▸ List.mem_cons_self c cs)
    have hcs : sep ∉ cs := fun hm => h (List.mem_cons_of_mem c hm)
    simp only [List.cons_append, splitOnChar, if_neg hc, List.append_eq, ih hcs]

theorem length_five_shape {α : Type} (l : List α) (h : l.length = 5) :
    ∃ a b c d e, l = [a, b, c, d, e] := by
  rcases l with _ | ⟨a, _ | ⟨b, _ | ⟨c, _ | ⟨d, _ | ⟨e, rest⟩⟩⟩⟩⟩
  · simp at h
  · simp at h
  · simp at h
  · simp at h
  · simp at h
  · refine ⟨a, b, c, d, e, ?_⟩
    have hr : rest = [] := by
      simp only [List.length_cons] at h
      exact List.eq_nil_of_length_eq_zero (by omega)
    rw [hr]

theorem digitOk_ne {b : Nat} {c : Char} (h : DigitOk b c) :
    c ≠ ':' ∧ c ≠ '?' := by
  constructor <;> intro he <;> (rw [he] at h; exact absurd h.1 (by decide))

theorem pythonIntBase_intRepr (i : Int) (hi : 0 ≤ i) :
    pythonIntBase 10 (intRepr i) = some i := by
  unfold intRepr
  rw [if_neg (by omega)]
  rw [pythonIntBase_digits 10 _ (natRepr_ne_nil _) (natRepr_ok _).1, (natRepr_ok _).2,
    Int.toNat_of_nonneg hi]

theorem pyZFill_ne_nil (w : Nat) (i : Int) (hi : 0 ≤ i) : pyZFill w i ≠ [] := by
  unfold pyZFill
  rw [if_neg (by omega)]
  intro hnil
  simp only [List.append_eq_nil] at hnil
  exact natRepr_ne_nil _ hnil.2

theorem pythonIntBase_pyZFill (w : Nat) (i : Int) (hi : 0 ≤ i) :
    pythonIntBase 10 (pyZFill w i) = some i := by
  obtain ⟨hok, hval, _⟩ := pyZFill_nonneg w i hi
  rw [pythonIntBase_digits 10 _ (pyZFill_ne_nil w i hi) hok, hval,
    Int.toNat_of_nonneg hi]

theorem queryPart_append (p q : List Char) (hp : '?' ∉ p) (hq : '?' ∉ q) :
    queryPart (p ++ '?' :: q) = q := by
  unfold queryPart
  have hmem : '?' ∈ p ++ '?' :: q :=
    List.mem_append_right p (List.mem_cons_self _ _)
  rw [if_pos (contains_eq_true_of_mem hmem),
    splitOnChar_append '?' p q hp, splitOnChar_not_mem '?' q hq]
  rfl

theorem queryPart_no_question (l : List Char) (h : '?' ∉ l) : queryPart l = l := by
  have hc : l.contains '?' = false := contains_eq_false_of_not_mem h
  unfold queryPart
  rw [hc]
  simp

theorem not_mem_append_cons {x y : List Char} {a d : Char}
    (hx : a ∉ x) (had : a ≠ d) (hy : a ∉ y) : a ∉ x ++ d :: y := by
  intro hmem
  rcases List.mem_append.mp hmem with h | h
  · exact hx h
  · rcases List.mem_cons.mp h with h | h
    · exact had h
    · exact hy h

/-! ### Claim theorems C7 to C10 -/

/-- C7: `parse_url` fails (`ValueError`, the spec's FormatError) unless
splitting the query part on `':'` yields exactly 5 fields, and fails when
any coordinate field is rejected by `int()`; the sample URL parses to
`("abc", 1, 1, 1, 1)` and a 4-field URL fails. -/
theorem c7_parse_url_validation :
    (parseUrl "https://host/book.cgi?abc:1:1:01:001" = some ("abc", 1, 1, 1, 1)) ∧
    (parseUrl "https://host/book.cgi?abc:1:1:01" = none) ∧
    (∀ url : String, (splitOnChar ':' (queryPart url.data)).length ≠ 5 →
      parseUrl url = none) ∧
    (∀ url : String, ∀ f ∈ (splitOnChar ':' (queryPart url.data)).drop 1,
      pythonIntBase 10 f = none → parseUrl url = none) := by
  refine ⟨by decide, by decide, ?_, ?_⟩
  · intro url h
    unfold parseUrl
    rw [if_neg h]
  · intro url f hf hnone
    by_cases h5 : (splitOnChar ':' (queryPart url.data)).length = 5
    · obtain ⟨a, b2, c2, d2, e2, hparts⟩ := length_five_shape _ h5
      unfold parseUrl
      rw [hparts] at hf ⊢
      rw [if_pos (by simp)]
      simp only [List.getD_cons_zero, List.getD_cons_succ]
      simp only [List.drop_succ_cons, List.drop_zero, List.mem_cons,
        List.not_mem_nil, or_false] at hf
      split
      · rename_i w s v p hw2 hs2 hv2 hp2
        rcases hf with rfl | rfl | rfl | rfl
        · rw [hnone] at hw2; exact Option.noConfusion hw2
        · rw [hnone] at hs2; exact Option.noConfusion hs2
        · rw [hnone] at hv2; exact Option.noConfusion hv2
        · rw [hnone] at hp2; exact Option.noConfusion hp2
      · rfl
    · unfold parseUrl
      rw [if_neg h5]

theorem c7_parse_url_validation_witness : parseUrl "onlyfour:1:2:3" = none := by
  apply c7_parse_url_validation.2.2.1
  decide

/-- C8: parsing the URL produced by `coordinates_to_url` recovers the same
values, for every hex address string of base-36 digits and all nonnegative
integer coordinate fields. -/
theorem c8_url_roundtrip (hexName : String) (wall shelf volume page : Int)
    (hhex : ∀ c ∈ hexName.data, c ∈ BASE36_DIGITS.data)
    (hw : 0 ≤ wall) (hs : 0 ≤ shelf) (hv : 0 ≤ volume) (hp : 0 ≤ page) :
    parseUrl (coordinatesToUrl hexName wall shelf volume page)
      = some (hexName, wall, shelf, volume, page) := by
  have hbase36 : ∀ c ∈ BASE36_DIGITS.data, c ≠ ':' ∧ c ≠ '?' := by decide
  have hhexC : ∀ c ∈ hexName.data, c ≠ ':' ∧ c ≠ '?' :=
    fun c hc => hbase36 c (hhex c hc)
  have hwd : ∀ c ∈ intRepr wall, c ≠ ':' ∧ c ≠ '?' := by
    intro c hc
    unfold intRepr at hc
    rw [if_neg (by omega)] at hc
    exact digitOk_ne ((natRepr_ok _).1 c hc)
  have hsd : ∀ c ∈ intRepr shelf, c ≠ ':' ∧ c ≠ '?' := by
    intro c hc
    unfold intRepr at hc
    rw [if_neg (by omega)] at hc
    exact digitOk_ne ((natRepr_ok _).1 c hc)
  have hvd : ∀ c ∈ pyZFill 2 volume, c ≠ ':' ∧ c ≠ '?' :=
    fun c hc => digitOk_ne ((pyZFill_nonneg 2 volume hv).1 c hc)
  have hpd : ∀ c ∈ pyZFill 3 page, c ≠ ':' ∧ c ≠ '?' :=
    fun c hc => digitOk_ne ((pyZFill_nonneg 3 page hp).1 c hc)
  have q4 : '?' ∉ pyZFill 3 page := fun hm => (hpd _ hm).2 rfl
  have q3 : '?' ∉ pyZFill 2 volume ++ ':' :: pyZFill 3 page :=
    not_mem_append_cons (fun hm => (hvd _ hm).2 rfl) (by decide) q4
  have q2 : '?' ∉ intRepr shelf ++ ':' :: (pyZFill 2 volume ++ ':' :: pyZFill 3 page) :=
    not_mem_append_cons (fun hm => (hsd _ hm).2 rfl) (by decide) q3
  have q1 : '?' ∉ intRepr wall
      ++ ':' :: (intRepr shelf ++ ':' :: (pyZFill 2 volume ++ ':' :: pyZFill 3 page)) :=
    not_mem_append_cons (fun hm => (hwd _ hm).2 rfl) (by decide) q2
  have q0 : '?' ∉ hexName.data ++ ':' :: (intRepr wall
      ++ ':' :: (intRepr shelf ++ ':' :: (pyZFill 2 volume ++ ':' :: pyZFill 3 page))) :=
    not_mem_append_cons (fun hm => (hhexC _ hm).2 rfl) (by decide) q1
  have hqp : queryPart (coordinatesToUrl hexName wall shelf volume page).data
      = hexName.data ++ ':' :: (intRepr wall
        ++ ':' :: (intRepr shelf ++ ':' :: (pyZFill 2 volume ++ ':' :: pyZFill 3 page))) := by
    exact queryPart_append _ _ (by decide) q0
  have hsplit : splitOnChar ':' (hexName.data ++ ':' :: (intRepr wall
      ++ ':' :: (intRepr shelf ++ ':' :: (pyZFill 2 volume ++ ':' :: pyZFill 3 page))))
      = [hexName.data, intRepr wall, intRepr shelf, pyZFill 2 volume, pyZFill 3 page] := by
    rw [splitOnChar_append ':' _ _ (fun hm => (hhexC _ hm).1 rfl),
      splitOnChar_append ':' _ _ (fun hm => (hwd _ hm).1 rfl),
      splitOnChar_append ':' _ _ (fun hm => (hsd _ hm).1 rfl),
      splitOnChar_append ':' _ _ (fun hm => (hvd _ hm).1 rfl),
      splitOnChar_not_mem ':' _ (fun hm => (hpd _ hm).1 rfl)]
  unfold parseUrl
  rw [hqp, hsplit, if_pos (by simp)]
  simp only [List.getD_cons_zero, List.getD_cons_succ]
  rw [pythonIntBase_intRepr wall hw, pythonIntBase_intRepr shelf hs,
    pythonIntBase_pyZFill 2 volume hv, pythonIntBase_pyZFill 3 page hp]

theorem c8_url_roundtrip_witness :
    parseUrl (coordinatesToUrl "abc" 1 1 1 1) = some ("abc", 1, 1, 1, 1) :=
  c8_url_roundtrip "abc" 1 1 1 1 (by decide)
    (by decide) (by decide) (by decide) (by decide)

/-- C9 counterexample: `parse_url` does not operate on the entire remainder
after the first `'?'`: with prefix `"a"` (no `'?'`) and suffix
`"b?c:1:1:1:1"`, parsing the combined URL fails while parsing the bare
suffix succeeds. -/
theorem c9_counterexample :
    parseUrl "a?b?c:1:1:1:1" = none ∧
      parseUrl "b?c:1:1:1:1" = some ("c", 1, 1, 1, 1) := by
  decide

/-- C9 (amended): `parse_url` operates on the substring between the first
`'?'` and the next `'?'` (or the end of the string); equivalently, for every
prefix and suffix both free of `'?'`, parsing `prefix ? suffix` behaves the
same as parsing the bare suffix. -/
theorem c9_query_between_marks (p q : List Char) (hp : '?' ∉ p) (hq : '?' ∉ q) :
    parseUrl ⟨p ++ '?' :: q⟩ = parseUrl ⟨q⟩ := by
  unfold parseUrl
  rw [show (⟨p ++ '?' :: q⟩ : String).data = p ++ '?' :: q from rfl,
    show (⟨q⟩ : String).data = q from rfl,
    queryPart_append p q hp hq, queryPart_no_question q hq]

theorem c9_query_between_marks_witness :
    parseUrl ⟨"a".data ++ '?' :: "abc:1:1:1:1".data⟩ = parseUrl ⟨"abc:1:1:1:1".data⟩ :=
  c9_query_between_marks "a".data "abc:1:1:1:1".data (by decide) (by decide)

/-- C10: `parse_url` does not require a `'?'` at all — on input without a
`'?'` it splits the entire string on `':'` and, when exactly 5 fields
result with integer coordinate fields, returns them; in particular
`parse_url "abc:1:1:1:1"` succeeds although the input is not a URL. -/
theorem c10_parse_url_without_question :
    (∀ url : String, '?' ∉ url.data →
      ∀ a b c d e : List Char, splitOnChar ':' url.data = [a, b, c, d, e] →
      ∀ w s v p : Int, pythonIntBase 10 b = some w → pythonIntBase 10 c = some s →
        pythonIntBase 10 d = some v → pythonIntBase 10 e = some p →
        parseUrl url = some (⟨a⟩, w, s, v, p)) ∧
    parseUrl "abc:1:1:1:1" = some ("abc", 1, 1, 1, 1) := by
  constructor
  · intro url hq a b c d e hsplit w s v p hw hs hv hp
    unfold parseUrl
    rw [queryPart_no_question url.data hq, hsplit, if_pos (by simp)]
    simp only [List.getD_cons_zero, List.getD_cons_succ]
    rw [hw, hs, hv, hp]
  · decide

theorem c10_parse_url_without_question_witness :
    parseUrl "x:2:3:4:5" = some (⟨['x']⟩, 2, 3, 4, 5) :=
  c10_parse_url_without_question.1 "x:2:3:4:5" (by decide)
    ['x'] ['2'] ['3'] ['4'] ['5'] (by decide)
    2 3 4 5 (by decide) (by decide) (by decide) (by decide)

end Babel
